import Mathlib

/-!
Shallow embedding of `src/seuss.py`, a monadic parser-combinator library.

Python strings are modelled as `List Char` (`Str`); a Python one-character
string (such as `text[0]`) is modelled as a `Char`.  A Python iterator of
parse results is modelled as the finite `List` of the results it yields,
in yield order; parse failure is the empty list.  The lazy, possibly
non-terminating recursion inside `many` is modelled with explicit fuel
bounding the recursion depth, returning `none` when the fuel runs out
(see `manyParse`).
-/

namespace Seuss

/-- A Python `str`, as a list of its characters. -/
abbrev Str := List Char

/-- `Parser` (seuss.py line 13): a value wrapping `parse`, a function from
text to the sequence of `(value, remainder)` results. -/
structure Parser (T : Type) where
  parse : Str → List (T × Str)

/-- `String(match)` (seuss.py line 66): if `text.startswith(match)`, yield
`(match, text[len(match):])`, else nothing.  (`match` is a Lean keyword, so
the argument is named `m`.) -/
def String (m : Str) : Parser Str :=
  ⟨fun text => if m.isPrefixOf text then [(m, text.drop m.length)] else []⟩

/-- `IsCharacter(predicate)` (seuss.py line 76): if the text is non-empty
and its first character satisfies the predicate, yield `(text[0], text[1:])`. -/
def IsCharacter (predicate : Char → Bool) : Parser Char :=
  ⟨fun text =>
    match text with
    | [] => []
    | c :: rest => if predicate c then [(c, rest)] else []⟩

/-- `Characters(characters)` (seuss.py line 86): if the text is non-empty and
its first character is one of `characters`, yield `(text[0], text[1:])`. -/
def Characters (characters : Str) : Parser Char :=
  ⟨fun text =>
    match text with
    | [] => []
    | c :: rest => if c ∈ characters then [(c, rest)] else []⟩

/-- Python's `string.digits`. -/
def digits : Str := ['0', '1', '2', '3', '4', '5', '6', '7', '8', '9']

/-- Python's `string.whitespace`. -/
def whitespace : Str := [' ', '\t', '\n', '\r', '\x0b', '\x0c']

/-- `Digit` (seuss.py line 99). -/
def Digit : Parser Char := Characters digits

/-- `Whitespace` (seuss.py line 106). -/
def Whitespace : Parser Char := Characters whitespace

/-- `EndOfInput` (seuss.py lines 110-115): succeeds with `None` (modelled as
`Unit`) exactly on the empty string. -/
def EndOfInput : Parser Unit :=
  ⟨fun text => match text with | [] => [((), [])] | _ :: _ => []⟩

/-- `Map(function, parser)` (seuss.py line 119): yield
`(function(value), remaining)` for each result of `parser`. -/
def Map (function : A → B) (parser : Parser A) : Parser B :=
  ⟨fun text => (parser.parse text).map (fun vr => (function vr.1, vr.2))⟩

/-- `Pure(value)` (seuss.py line 127): always yields exactly `(value, text)`. -/
def Pure (value : T) : Parser T :=
  ⟨fun text => [(value, text)]⟩

/-- `AndThen(previous, callback)` (seuss.py line 136): for each
`(value, remaining)` of `previous`, yield all results of
`callback(value).parse(remaining)`. -/
def AndThen (previous : Parser A) (callback : A → Parser B) : Parser B :=
  ⟨fun text => (previous.parse text).flatMap (fun vr => (callback vr.1).parse vr.2)⟩

/-- `Lift(f, a, b)` (seuss.py line 146): run `a`, then `b` on each remainder,
and combine the two values with `f`. -/
def Lift (f : A → B → T) (a : Parser A) (b : Parser B) : Parser T :=
  ⟨fun text =>
    (a.parse text).flatMap (fun xr => (b.parse xr.2).map (fun yr => (f xr.1 yr.1, yr.2)))⟩

/-- `Parser.map` method (seuss.py line 37). -/
def Parser.map (p : Parser T) (function : T → B) : Parser B := Map function p

/-- `Parser.and_then` method (seuss.py line 41). -/
def Parser.and_then (p : Parser T) (function : T → Parser B) : Parser B :=
  AndThen p function

/-- `Parser.then` method (seuss.py line 45).  (`then` is a Lean keyword, so
the Lean name is `thenP`.) -/
def Parser.thenP (p : Parser T) (next_p : Parser B) : Parser B :=
  AndThen p (fun _ => next_p)

/-- `Parser.passthrough` method (seuss.py line 49): run `next_p` after `p`
and keep `p`'s value. -/
def Parser.passthrough (p : Parser T) (next_p : Parser A) : Parser T :=
  AndThen p (fun a => next_p.map (fun _ => a))

/-- `Parser.Zero` (seuss.py line 56): rejects all input. -/
def Zero : Parser T := ⟨fun _ => []⟩

/-- `OneOf(parsers)` applied to a list (seuss.py line 157): iterate the
parsers in order and yield all results of each against the same text.
(The statefulness of a non-list `Iterable` argument is modelled separately
by `PyIterable` and `OneOfCall`.) -/
def OneOf (parsers : List (Parser T)) : Parser T :=
  ⟨fun text => parsers.flatMap (fun parser => parser.parse text)⟩

/-- `Parser.__or__` (seuss.py line 53). -/
def Parser.orP (p other : Parser T) : Parser T := OneOf [p, other]

/-- `cons(x, ys)` (seuss.py line 211): `[x] + ys`. -/
def cons (x : T) (ys : List T) : List T := x :: ys

/-- The `stack` loop body of `replicate` (seuss.py lines 170-172): after `k`
iterations the top of the stack is `Lift(cons, parser, previous_top)`,
starting from `Pure([])`. -/
def replicateAux (parser : Parser T) : Nat → Parser (List T)
  | 0 => Pure []
  | k + 1 => Lift cons parser (replicateAux parser k)

/-- `replicate(n, parser)` (seuss.py line 167): `n` is a Python `int`, so it
may be negative; `range(n)` then yields nothing and the loop body never
runs, which `Int.toNat` (zero on non-positive `n`) captures. -/
def replicate (n : Int) (parser : Parser T) : Parser (List T) :=
  replicateAux parser n.toNat

/-- One step of the inner `for` loop of `many(parser).parse` (seuss.py
lines 192-196): for each `(value, remainder)` already produced by the inner
parser, run the recursive continuation `cont` on `remainder` and prepend
`value` to each of its value lists, concatenating the outputs in order.
`none` propagates fuel exhaustion of the continuation. -/
def manyGo (cont : Str → Option (List (List T × Str))) :
    List (T × Str) → Option (List (List T × Str))
  | [] => some []
  | vr :: rest =>
    match cont vr.2, manyGo cont rest with
    | some child, some tail =>
        some (child.map (fun ir => (vr.1 :: ir.1, ir.2)) ++ tail)
    | _, _ => none

/-- The recursive closure `parse` inside `many(parser)` (seuss.py lines
190-198): if the inner parser yields nothing (`bottom` stays false), yield
exactly `([], text)`; otherwise recurse on every remainder, prepending each
value.  The Python recursion can diverge, so it is modelled with fuel
bounding the recursion depth: `none` means the computation did not finish
within the given depth. -/
def manyParse (parser : Parser T) : Nat → Str → Option (List (List T × Str))
  | 0, _ => none
  | fuel + 1, text =>
    let rs := parser.parse text
    if rs.isEmpty then some [([], text)]
    else manyGo (manyParse parser fuel) rs

/-- A Python `Iterable` of parsers, as received by `OneOf` (seuss.py line
157): either a list, which can be iterated repeatedly, or a one-shot
iterator (e.g. a generator or `map` object) holding the items it has not
yet yielded. -/
inductive PyIterable (α : Type) where
  | plist (items : List α)
  | piter (remaining : List α)

/-- One call of `OneOf(parsers).parse(text)` together with the state of the
stored `Iterable` after the call: the `for` loop over a list visits every
item and leaves the list reusable, while the loop over a one-shot iterator
drains it, leaving nothing for the next call. -/
def OneOfCall (it : PyIterable (Parser T)) (text : Str) :
    List (T × Str) × PyIterable (Parser T) :=
  match it with
  | .plist items => (items.flatMap (fun parser => parser.parse text), .plist items)
  | .piter remaining => (remaining.flatMap (fun parser => parser.parse text), .piter [])

/-- `remainder` is a suffix of the parsed text, for every result of `p`. -/
def SuffixSound (p : Parser T) : Prop :=
  ∀ text vr, vr ∈ p.parse text → vr.2 <:+ text

end Seuss

namespace Seuss

/-- C6: The monad laws hold as equalities of result sequences on every
input: `AndThen (Pure v) f` behaves identically to `f v` (left identity),
`AndThen p Pure` behaves identically to `p` (right identity), and
`AndThen (AndThen p f) g` behaves identically to
`AndThen p (fun x => AndThen (f x) g)` (associativity). -/
theorem and_then_monad_laws :
    (∀ (A B : Type) (v : A) (f : A → Parser B) (text : Str),
      (AndThen (Pure v) f).parse text = (f v).parse text) ∧
    (∀ (A : Type) (p : Parser A) (text : Str),
      (AndThen p Pure).parse text = p.parse text) ∧
    (∀ (A B C : Type) (p : Parser A) (f : A → Parser B) (g : B → Parser C) (text : Str),
      (AndThen (AndThen p f) g).parse text =
        (AndThen p (fun x => AndThen (f x) g)).parse text) := by
  refine ⟨?_, ?_, ?_⟩
  · intro A B v f text
    simp [AndThen, Pure]
  · intro A p text
    simp [AndThen, Pure]
  · intro A B C p f g text
    simp [AndThen, List.flatMap_assoc]

/-- C7: `replicate 0 p` yields exactly `([], text)` on every input, and the
constructed parser does not depend on `p` at all (it equals `replicate 0 q`
for every `q`), so `p` is never invoked. -/
theorem replicate_zero_pure (T : Type) (p : Parser T) (text : Str) :
    (replicate 0 p).parse text = [([], text)] ∧
    ∀ q : Parser T, replicate 0 p = replicate 0 q :=
  ⟨rfl, fun _ => rfl⟩

/-- C8: `OneOf` yields exactly the concatenation of its parsers' result
sequences in list order: it distributes over cons and append (so an earlier
success never suppresses later alternatives), and the empty list of
alternatives yields nothing. -/
theorem oneOf_concat_order (T : Type) (p : Parser T) (ps qs : List (Parser T)) (text : Str) :
    (OneOf (p :: ps)).parse text = p.parse text ++ (OneOf ps).parse text ∧
    (OneOf (ps ++ qs)).parse text = (OneOf ps).parse text ++ (OneOf qs).parse text ∧
    (OneOf ([] : List (Parser T))).parse text = [] := by
  refine ⟨?_, ?_, rfl⟩
  · simp [OneOf]
  · simp [OneOf, List.flatMap_append]

/-- C9: `String s` yields exactly `(s, rest)` on input `s ++ rest` (the
input with the prefix `s` stripped), and yields nothing when the input does
not start with `s`.  This holds for every `s`, including the empty string. -/
theorem string_parse_spec :
    (∀ s rest : Str, (String s).parse (s ++ rest) = [(s, rest)]) ∧
    (∀ s text : Str, ¬ s <+: text → (String s).parse text = []) := by
  constructor
  · intro s rest
    have h : s.isPrefixOf (s ++ rest) = true :=
      List.isPrefixOf_iff_prefix.mpr ⟨rest, rfl⟩
    simp [String, h, List.drop_left]
  · intro s text h
    simp only [String]
    rw [if_neg]
    simpa [List.isPrefixOf_iff_prefix] using h

/-- Witness for C9 at the concrete inputs of the spec's example shape. -/
theorem string_parse_spec_witness :
    (String ['a']).parse (['a'] ++ ['b']) = [(['a'], ['b'])] ∧
    (String ['a']).parse ['b'] = [] :=
  ⟨string_parse_spec.1 ['a'] ['b'], string_parse_spec.2 ['a'] ['b'] (by decide)⟩

/-- C10: `Characters []` (the empty character set) raises nothing and yields
the empty result sequence on every input, exactly like `Zero`. -/
theorem characters_empty_is_zero (text : Str) :
    (Characters []).parse text = [] ∧
    (Characters []).parse text = (Zero : Parser Char).parse text := by
  constructor <;> cases text <;> simp [Characters, Zero]

/-- C1 counterexample: `replicate (-1) Digit` parses `"ab"` successfully,
yielding the non-empty result sequence `[([], "ab")]`, contradicting the
claim that a negative repetition count never yields a successful parse. -/
theorem replicate_neg_one_succeeds :
    (replicate (-1) Digit).parse ['a', 'b'] = [([], ['a', 'b'])] ∧
    (replicate (-1) Digit).parse ['a', 'b'] ≠ [] := by
  constructor
  · rfl
  · decide

/-- C1 amended: for every `n < 0`, `replicate n p` is the same parser as
`replicate 0 p`: it succeeds on every input with the empty list and the
input unchanged (Python's `range(n)` is empty for negative `n`, so no
error is raised and the loop body never runs). -/
theorem replicate_neg_eq_zero (n : Int) (h : n < 0) (T : Type) (p : Parser T) (text : Str) :
    (replicate n p).parse text = [([], text)] ∧ replicate n p = replicate 0 p := by
  have hz : n.toNat = 0 := Int.toNat_of_nonpos h.le
  constructor
  · simp [replicate, hz, replicateAux, Pure]
  · simp [replicate, hz]

/-- Witness for the amended C1 at `n = -2`. -/
theorem replicate_neg_eq_zero_witness :
    (replicate (-2) Digit).parse ['x'] = [([], ['x'])] ∧
    replicate (-2) Digit = replicate 0 Digit :=
  replicate_neg_eq_zero (-2) (by decide) Char Digit ['x']

/-- C3 counterexample: `OneOf` stores the `Iterable` it is given and
re-iterates it on every `parse` call; when that iterable is a one-shot
iterator over `[String "a"]`, the first `parse "a"` succeeds and exhausts
the iterator, so a second `parse "a"` yields a different (empty) sequence. -/
theorem oneOf_iterator_second_call_differs :
    (OneOfCall (PyIterable.piter [String ['a']]) ['a']).1 ≠
    (OneOfCall ((OneOfCall (PyIterable.piter [String ['a']]) ['a']).2) ['a']).1 := by
  decide

/-- C3 amended: when `OneOf` is given a re-iterable collection (a list),
two successive `parse` calls on the same input yield the same result
sequence and leave the stored iterable unchanged; when it is given a
one-shot iterator, the first call drains it and every second call yields
the empty sequence. -/
theorem oneOf_reiterable_deterministic (T : Type) (ps : List (Parser T)) (text : Str) :
    (OneOfCall ((OneOfCall (PyIterable.plist ps) text).2) text).1 =
      (OneOfCall (PyIterable.plist ps) text).1 ∧
    (OneOfCall (PyIterable.plist ps) text).2 = PyIterable.plist ps ∧
    ∀ qs : List (Parser T),
      (OneOfCall ((OneOfCall (PyIterable.piter qs) text).2) text).1 = [] :=
  ⟨rfl, rfl, fun _ => rfl⟩

/-- Every result of `manyGo` is built from one inner result `ur` in the
iterated list and one recursive result `ir`, with `ur`'s value consed on. -/
theorem manyGo_mem_elim (cont : Str → Option (List (List T × Str)))
    (l : List (T × Str)) (res : List (List T × Str))
    (h : manyGo cont l = some res) :
    ∀ vr ∈ res, ∃ ur ∈ l, ∃ child, cont ur.2 = some child ∧
      ∃ ir ∈ child, vr = (ur.1 :: ir.1, ir.2) := by
  induction l generalizing res with
  | nil =>
    simp only [manyGo, Option.some.injEq] at h
    subst h
    simp
  | cons ur rest ih =>
    intro vr hvr
    cases hc : cont ur.2 with
    | none =>
      simp only [manyGo, hc] at h
      exact Option.noConfusion h
    | some child =>
      cases hg : manyGo cont rest with
      | none =>
        simp only [manyGo, hc, hg] at h
        exact Option.noConfusion h
      | some tail =>
        simp only [manyGo, hc, hg, Option.some.injEq] at h
        subst h
        rcases List.mem_append.mp hvr with hm | hm
        · rcases List.mem_map.mp hm with ⟨ir, hir, hir2⟩
          exact ⟨ur, by simp, child, hc, ir, hir, hir2.symm⟩
        · rcases ih tail hg vr hm with ⟨ur2, hur2, child2, hchild2, ir, hir, heq⟩
          exact ⟨ur2, by simp [hur2], child2, hchild2, ir, hir, heq⟩

/-- `manyGo`, when every recursive continuation finishes, is the ordered
concatenation over the inner results `vr` of the continuation's outputs on
`vr`'s remainder with `vr`'s value prepended. -/
theorem manyGo_eq_of_forall (cont : Str → Option (List (List T × Str)))
    (f : T × Str → List (List T × Str)) :
    ∀ l : List (T × Str), (∀ vr ∈ l, cont vr.2 = some (f vr)) →
      manyGo cont l =
        some (l.flatMap (fun vr => (f vr).map (fun ir => (vr.1 :: ir.1, ir.2)))) := by
  intro l
  induction l with
  | nil => intro _; simp [manyGo]
  | cons ur rest ih =>
    intro h
    have h1 : cont ur.2 = some (f ur) := h ur (by simp)
    have h2 := ih (fun x hx => h x (by simp [hx]))
    simp [manyGo, h1, h2]

/-- C2: `many p` yields exactly the single "stop here" result `([], text)`
if and only if `p` yields no result on `text`; when `p` does yield results
`(v, rem)` (any number of them) and each recursive continuation on `rem`
finishes with results `f (v, rem)`, the output is the ordered concatenation,
over `p`'s results in order, of those continuations with `v` prepended to
every value list; and in any finished output the "stop here" result occurs
exactly when `p` yielded nothing. -/
theorem many_unfold_spec (T : Type) (p : Parser T) (fuel : Nat) (text : Str) :
    (manyParse p (fuel + 1) text = some [([], text)] ↔ p.parse text = []) ∧
    (∀ f : T × Str → List (List T × Str), p.parse text ≠ [] →
      (∀ vr ∈ p.parse text, manyParse p fuel vr.2 = some (f vr)) →
      manyParse p (fuel + 1) text =
        some ((p.parse text).flatMap
          (fun vr => (f vr).map (fun ir => (vr.1 :: ir.1, ir.2))))) ∧
    (∀ res, manyParse p (fuel + 1) text = some res →
      (([], text) ∈ res ↔ p.parse text = [])) := by
  have hshape : manyParse p (fuel + 1) text =
      if (p.parse text).isEmpty then some [([], text)]
      else manyGo (manyParse p fuel) (p.parse text) := by
    simp only [manyParse]
  have hnotmem : ∀ res, ¬ (p.parse text).isEmpty = true →
      manyParse p (fuel + 1) text = some res → ([], text) ∉ res := by
    intro res hrs h hmem
    rw [hshape, if_neg hrs] at h
    rcases manyGo_mem_elim _ _ _ h _ hmem with ⟨ur, _, child, _, ir, _, heq⟩
    simp at heq
  refine ⟨⟨?mp, ?mpr⟩, ?conc, ?stop⟩
  case mpr =>
    intro h
    simp [manyParse, h]
  case mp =>
    intro h
    by_cases hrs : (p.parse text).isEmpty
    · exact List.isEmpty_iff.mp hrs
    · exact absurd (by simp) (fun hm => hnotmem [([], text)] hrs h hm)
  case conc =>
    intro f hne hall
    rw [hshape, if_neg (by simpa [List.isEmpty_iff] using hne)]
    exact manyGo_eq_of_forall (manyParse p fuel) f (p.parse text) hall
  case stop =>
    intro res h
    constructor
    · intro hmem
      by_cases hrs : (p.parse text).isEmpty
      · exact List.isEmpty_iff.mp hrs
      · exact absurd hmem (hnotmem res hrs h)
    · intro hrs
      rw [hshape, if_pos (by simp [hrs])] at h
      cases h
      simp

/-- Witness for C2: `many Digit` on `"a"` (where `Digit` fails) yields
exactly `[([], "a")]`; and for the ambiguous parser
`OneOf [String "a", String "ab"]` on `"ab"`, which yields two results, the
output is the ordered concatenation of the recursive continuations on the
two remainders with the matched string prepended. -/
theorem many_unfold_spec_witness :
    manyParse Digit 1 ['a'] = some [([], ['a'])] ∧
    manyParse (OneOf [String ['a'], String ['a', 'b']]) 2 ['a', 'b'] =
      some [([['a']], ['b']), ([['a', 'b']], [])] :=
  ⟨(many_unfold_spec Char Digit 0 ['a']).1.mpr (by decide),
   (many_unfold_spec Str (OneOf [String ['a'], String ['a', 'b']]) 1 ['a', 'b']).2.1
     (fun vr => [([], vr.2)]) (by decide) (by decide)⟩

/-- `manyGo` finishes whenever the recursive continuation finishes on every
remainder in the iterated list. -/
theorem manyGo_isSome (cont : Str → Option (List (List T × Str)))
    (l : List (T × Str)) (h : ∀ vr ∈ l, (cont vr.2).isSome) :
    (manyGo cont l).isSome := by
  induction l with
  | nil => simp [manyGo]
  | cons ur rest ih =>
    have h1 := h ur (by simp)
    have h2 := ih (fun x hx => h x (by simp [hx]))
    rcases Option.isSome_iff_exists.mp h1 with ⟨child, hc⟩
    rcases Option.isSome_iff_exists.mp h2 with ⟨tail, hg⟩
    simp [manyGo, hc, hg]

theorem suffixSound_string (s : Str) : SuffixSound (String s) := by
  intro text vr h
  simp only [String] at h
  split at h
  · simp only [List.mem_singleton] at h
    subst h
    exact List.drop_suffix _ _
  · simp at h

theorem suffixSound_characters (cs : Str) : SuffixSound (Characters cs) := by
  intro text vr h
  cases text with
  | nil => simp [Characters] at h
  | cons c rest =>
    simp only [Characters] at h
    split at h
    · simp only [List.mem_singleton] at h
      subst h
      exact List.suffix_cons c rest
    · simp at h

theorem suffixSound_isCharacter (predicate : Char → Bool) :
    SuffixSound (IsCharacter predicate) := by
  intro text vr h
  cases text with
  | nil => simp [IsCharacter] at h
  | cons c rest =>
    simp only [IsCharacter] at h
    split at h
    · simp only [List.mem_singleton] at h
      subst h
      exact List.suffix_cons c rest
    · simp at h

theorem suffixSound_pure (v : T) : SuffixSound (Pure v) := by
  intro text vr h
  simp only [Pure, List.mem_singleton] at h
  subst h
  exact List.suffix_rfl

theorem suffixSound_zero (T : Type) : SuffixSound (Zero : Parser T) := by
  intro text vr h
  simp [Zero] at h

theorem suffixSound_endOfInput : SuffixSound EndOfInput := by
  intro text vr h
  cases text with
  | nil =>
    simp only [EndOfInput, List.mem_singleton] at h
    subst h
    exact List.suffix_rfl
  | cons c rest => simp [EndOfInput] at h

theorem suffixSound_map (f : A → B) (p : Parser A) (hp : SuffixSound p) :
    SuffixSound (Map f p) := by
  intro text vr h
  simp only [Map, List.mem_map] at h
  rcases h with ⟨ur, hur, heq⟩
  rw [← heq]
  exact hp text ur hur

theorem suffixSound_andThen (p : Parser A) (f : A → Parser B)
    (hp : SuffixSound p) (hf : ∀ v, SuffixSound (f v)) :
    SuffixSound (AndThen p f) := by
  intro text vr h
  simp only [AndThen, List.mem_flatMap] at h
  rcases h with ⟨ur, hur, hvr⟩
  exact (hf ur.1 ur.2 vr hvr).trans (hp text ur hur)

theorem suffixSound_lift (f : A → B → T) (a : Parser A) (b : Parser B)
    (ha : SuffixSound a) (hb : SuffixSound b) : SuffixSound (Lift f a b) := by
  intro text vr h
  simp only [Lift, List.mem_flatMap, List.mem_map] at h
  rcases h with ⟨xr, hxr, yr, hyr, heq⟩
  rw [← heq]
  exact (hb xr.2 yr hyr).trans (ha text xr hxr)

theorem suffixSound_oneOf (ps : List (Parser T)) (h : ∀ p ∈ ps, SuffixSound p) :
    SuffixSound (OneOf ps) := by
  intro text vr hm
  simp only [OneOf, List.mem_flatMap] at hm
  rcases hm with ⟨p, hp, hvr⟩
  exact h p hp text vr hvr

theorem suffixSound_replicateAux (p : Parser T) (hp : SuffixSound p) :
    ∀ k, SuffixSound (replicateAux p k) := by
  intro k
  induction k with
  | zero => exact suffixSound_pure []
  | succ k ih => exact suffixSound_lift cons p (replicateAux p k) hp ih

theorem suffixSound_manyParse (p : Parser T) (hp : SuffixSound p) :
    ∀ fuel text res, manyParse p fuel text = some res → ∀ vr ∈ res, vr.2 <:+ text := by
  intro fuel
  induction fuel with
  | zero => intro text res h; simp [manyParse] at h
  | succ f ih =>
    intro text res h vr hvr
    simp only [manyParse] at h
    by_cases hrs : (p.parse text).isEmpty
    · rw [if_pos hrs] at h
      have hres : res = [([], text)] := by
        simpa using h.symm
      subst hres
      simp only [List.mem_singleton] at hvr
      subst hvr
      exact List.suffix_rfl
    · rw [if_neg hrs] at h
      rcases manyGo_mem_elim (manyParse p f) (p.parse text) res h vr hvr with
        ⟨ur, hur, child, hchild, ir, hir, heq⟩
      subst heq
      exact (ih ur.2 child hchild ir hir).trans (hp text ur hur)

/-- C4: in every result of every parser built from the library's
primitives and combinators, the remainder is a suffix of the parsed text:
each primitive satisfies `SuffixSound` and every combinator preserves it,
including the fueled recursion of `many`. -/
theorem remainder_suffix_invariant :
    (∀ s : Str, SuffixSound (String s)) ∧
    (∀ cs : Str, SuffixSound (Characters cs)) ∧
    (∀ predicate : Char → Bool, SuffixSound (IsCharacter predicate)) ∧
    (∀ (T : Type) (v : T), SuffixSound (Pure v)) ∧
    (∀ T : Type, SuffixSound (Zero : Parser T)) ∧
    SuffixSound EndOfInput ∧
    (∀ (A B : Type) (f : A → B) (p : Parser A), SuffixSound p → SuffixSound (Map f p)) ∧
    (∀ (A B : Type) (p : Parser A) (f : A → Parser B),
      SuffixSound p → (∀ v, SuffixSound (f v)) → SuffixSound (AndThen p f)) ∧
    (∀ (T B : Type) (p : Parser T) (q : Parser B),
      SuffixSound p → SuffixSound q → SuffixSound (p.thenP q)) ∧
    (∀ (T A : Type) (p : Parser T) (q : Parser A),
      SuffixSound p → SuffixSound q → SuffixSound (p.passthrough q)) ∧
    (∀ (A B T : Type) (f : A → B → T) (a : Parser A) (b : Parser B),
      SuffixSound a → SuffixSound b → SuffixSound (Lift f a b)) ∧
    (∀ (T : Type) (ps : List (Parser T)),
      (∀ p ∈ ps, SuffixSound p) → SuffixSound (OneOf ps)) ∧
    (∀ (T : Type) (p q : Parser T),
      SuffixSound p → SuffixSound q → SuffixSound (p.orP q)) ∧
    (∀ (T : Type) (n : Int) (p : Parser T), SuffixSound p → SuffixSound (replicate n p)) ∧
    (∀ (T : Type) (p : Parser T), SuffixSound p →
      ∀ fuel text res, manyParse p fuel text = some res → ∀ vr ∈ res, vr.2 <:+ text) := by
  refine ⟨suffixSound_string, suffixSound_characters, suffixSound_isCharacter,
    fun _ => suffixSound_pure, suffixSound_zero, suffixSound_endOfInput,
    fun _ _ => suffixSound_map, fun _ _ => suffixSound_andThen,
    ?thenP, ?pass, fun _ _ _ => suffixSound_lift, fun _ => suffixSound_oneOf,
    ?orP, ?rep, fun _ => suffixSound_manyParse⟩
  case thenP =>
    intro T B p q hp hq
    exact suffixSound_andThen p (fun _ => q) hp (fun _ => hq)
  case pass =>
    intro T A p q hp hq
    exact suffixSound_andThen p _ hp
      (fun a => suffixSound_map (fun _ => a) q hq)
  case orP =>
    intro T p q hp hq
    refine suffixSound_oneOf [p, q] ?_
    intro r hr
    rcases List.mem_pair.mp hr with h | h <;> subst h <;> assumption
  case rep =>
    intro T n p hp
    exact suffixSound_replicateAux p hp n.toNat

/-- Witness for C4: the `String` conjunct at a concrete input. -/
theorem remainder_suffix_invariant_witness : (['c'] : Str) <:+ ['a', 'b', 'c'] :=
  remainder_suffix_invariant.1 ['a', 'b'] ['a', 'b', 'c'] (['a', 'b'], ['c']) (by decide)

/-- `Digit` always consumes a character when it succeeds. -/
theorem digit_consuming :
    ∀ text vr, vr ∈ Digit.parse text → vr.2.length < text.length := by
  intro text vr h
  cases text with
  | nil => simp [Digit, Characters] at h
  | cons c rest =>
    simp only [Digit, Characters] at h
    split at h
    · simp only [List.mem_singleton] at h
      subst h
      simp
    · simp at h

/-- C5: for a parser `p` that never succeeds without consuming at least one
character, `many p` terminates on every finite input with a finite result
sequence: recursion depth `length text + 1` already suffices for
`manyParse` to return a result. -/
theorem many_terminates_of_consuming (T : Type) (p : Parser T)
    (hp : ∀ text vr, vr ∈ p.parse text → vr.2.length < text.length) :
    ∀ fuel text, text.length < fuel → (manyParse p fuel text).isSome := by
  intro fuel
  induction fuel with
  | zero => intro text h; omega
  | succ f ih =>
    intro text h
    by_cases hrs : (p.parse text).isEmpty
    · simp [manyParse, hrs]
    · simp only [manyParse, hrs, Bool.false_eq_true, if_false]
      apply manyGo_isSome
      intro vr hvr
      apply ih
      have := hp text vr hvr
      omega

/-- Witness for C5: `many Digit` finishes on `"1"` within fuel 2. -/
theorem many_terminates_of_consuming_witness : (manyParse Digit 2 ['1']).isSome :=
  many_terminates_of_consuming Char Digit digit_consuming 2 ['1'] (by decide)

end Seuss

